import Mathlib

/-!
Verification of `src/exachem/scf/scf_common.cpp` (ExaChem SCF common routines).

The development shallowly embeds the three routines the specification talks
about:

* `gensqrtinv` — eigen-decomposes the overlap matrix, filters linearly
  dependent directions below a threshold, broadcasts the rank decision and
  builds the canonical orthogonal transform;
* `gensqrtinv_atscf` — the per-fragment variant of the same algorithm;
* `gather_task_vectors` — a variable-length gather of three integer vectors
  to the coordinating process.

Modelling conventions:

* Machine `double` values are modelled as `ℚ`; `std::sqrt` is modelled as an
  uninterpreted function parameter `sq : ℚ → ℚ` (both entry points invoke the
  same library routine on the same arguments, so sharing the parameter is
  faithful).  Division is exact `ℚ` division.
* The eigendecomposition (LAPACK `syevd` / ScaLAPACK / ELPA) is external to
  this file's source; its postcondition is that `eps` holds the eigenvalues
  ascending and `V` the matching eigenvectors.  The model therefore takes
  `eps : List ℚ` and `V : List (List ℚ)` (list of eigenvectors, positionally
  paired with `eps`) as inputs.
* A C++ iterator dereference is modelled with `Option`: `some` when the
  access is in range, `none` when the iterator is past the end (an
  out-of-range access in the C++ source).
* Vectors of `int` are modelled as `List ℤ`.
-/

/-- Line 161-162 of `gensqrtinv` (and 292-293 of `gensqrtinv_atscf`):
`std::find_if(eps.begin(), eps.end(), [&](const auto& x) { return x >= threshold; })`,
as the index of the first eigenvalue `≥ threshold`; equals `eps.length`
(the end iterator) when no eigenvalue is above the threshold. -/
def first_above_thresh (eps : List ℚ) (threshold : ℚ) : ℕ :=
  eps.findIdx (fun x => decide (threshold ≤ x))

/-- Line 165: `n_illcond = std::distance(eps.begin(), first_above_thresh)`. -/
def n_illcond (eps : List ℚ) (threshold : ℚ) : ℕ :=
  first_above_thresh eps threshold

/-- Lines 166 and 182: `n_cond = N - n_illcond` with `N = eps.size()`. -/
def n_cond (eps : List ℚ) (threshold : ℚ) : ℕ :=
  eps.length - n_illcond eps threshold

/-- Line 163: `result_condition_number = eps.back() / *first_above_thresh`.
Both dereferences are modelled with `Option`: `eps.back()` on the nonempty
eigenvalue vector, and `*first_above_thresh`, which is past the end exactly
when every eigenvalue is below the threshold. -/
def result_condition_number (eps : List ℚ) (threshold : ℚ) : Option ℚ :=
  match eps.getLast?, eps[first_above_thresh eps threshold]? with
  | some b, some f => some (b / f)
  | _, _ => none

/-- Line 53: `double condition_number{}` — value-initialized to `0.0` and
never assigned afterwards (the computation at lines 155-158 is commented
out); the same holds at line 270 of `gensqrtinv_atscf`. -/
def condition_number : ℚ := 0

/-- Per-rank value of the variable `n_illcond` before the broadcast step:
`int64_t n_illcond{}` is value-initialized to `0` on every rank and only
rank 0 (lines 154-179) assigns the computed filter value. -/
def n_illcond_before_bcast (computed : ℤ) (rank : ℕ) : ℤ :=
  if rank = 0 then computed else 0

/-- Line 181 (and 312): `if(world_size > 1) ec.pg().broadcast(&n_illcond, 0);`
— when the group has more than one process every rank receives rank 0's
value, otherwise each rank keeps its local value. -/
def n_illcond_after_bcast (world_size : ℕ) (computed : ℤ) (rank : ℕ) : ℤ :=
  if 1 < world_size then n_illcond_before_bcast computed 0
  else n_illcond_before_bcast computed rank

/-- Line 182 (and 313): `n_cond = N - n_illcond;`, executed on every rank
with its post-broadcast value of `n_illcond`. -/
def n_cond_at_rank (N : ℤ) (world_size : ℕ) (computed : ℤ) (rank : ℕ) : ℤ :=
  N - n_illcond_after_bcast world_size computed rank

/-- Lines 195-199 of `gensqrtinv`:
`std::vector<T> epso(first_above_thresh, eps.end());` followed by
`epso[i] = 1.0 / std::sqrt(epso[i])` — the retained eigenvalues with each
replaced by the reciprocal of its square root. -/
def epso (eps : List ℚ) (threshold : ℚ) (sq : ℚ → ℚ) : List ℚ :=
  (eps.drop (first_above_thresh eps threshold)).map (fun c => 1 / sq c)

/-- Dense path of `gensqrtinv`, lines 223-246, as the list of columns of the
transform: `V_cond = V.block(n_illcond, 0, N - n_illcond, N)` takes the
retained eigenvectors, `X = V_cond.transpose()` makes them the columns of
`X_tmp`, and the contraction
`X_comp(mu, mu_o) = X_tmp(mu, mu_o) * eps_tamm(mu_o)` multiplies every entry
of column `c` on the right by `epso[c]`. -/
def gensqrtinv_X (V : List (List ℚ)) (eps : List ℚ) (threshold : ℚ)
    (sq : ℚ → ℚ) : List (List ℚ) :=
  List.zipWith (fun v s => v.map (fun x => x * s))
    (V.drop (first_above_thresh eps threshold)) (epso eps threshold sq)

/-- Lines 292-296 of `gensqrtinv_atscf`: the linear-dependency filter,
textually identical to lines 161-165 of `gensqrtinv`. -/
def first_above_thresh_atscf (eps : List ℚ) (threshold : ℚ) : ℕ :=
  eps.findIdx (fun x => decide (threshold ≤ x))

/-- Line 296: `n_illcond = std::distance(eps.begin(), first_above_thresh)`
in `gensqrtinv_atscf`. -/
def n_illcond_atscf (eps : List ℚ) (threshold : ℚ) : ℕ :=
  first_above_thresh_atscf eps threshold

/-- Lines 297 and 313: `n_cond = N - n_illcond` in `gensqrtinv_atscf`. -/
def n_cond_atscf (eps : List ℚ) (threshold : ℚ) : ℕ :=
  eps.length - n_illcond_atscf eps threshold

/-- Line 294: `result_condition_number = eps.back() / *first_above_thresh`
in `gensqrtinv_atscf`, textually identical to line 163 of `gensqrtinv`. -/
def result_condition_number_atscf (eps : List ℚ) (threshold : ℚ) : Option ℚ :=
  match eps.getLast?, eps[first_above_thresh_atscf eps threshold]? with
  | some b, some f => some (b / f)
  | _, _ => none

/-- Lines 315-335 of `gensqrtinv_atscf`, as the list of columns of the
transform: `V_cond = V.block(n_illcond, 0, N - n_illcond, N)` then
`X = V_cond.transpose()` puts retained eigenvector `n_illcond + i` in
column `i`; the loop `for(auto i = 0; i < n_cond; ++i)` computes
`srt = std::sqrt(*(first_above_thresh + i))` and calls
`blas::scal(N, 1. / srt, X_col, n_cond)`, multiplying every entry of
column `i` on the left by `1 / srt`. -/
def gensqrtinv_atscf_X (V : List (List ℚ)) (eps : List ℚ) (threshold : ℚ)
    (sq : ℚ → ℚ) : List (List ℚ) :=
  let k := first_above_thresh_atscf eps threshold
  (List.range (eps.length - k)).map (fun i =>
    ((V.drop k).getD i []).map (fun x => (1 / sq (eps.getD (k + i) 0)) * x))

/-- Return value of `gensqrtinv`, line 253:
`std::make_tuple(size_t(n_cond), condition_number, result_condition_number)`
(the transform itself is written into `ttensors.X_alpha`, modelled by
`gensqrtinv_X`). -/
def gensqrtinv_ret (eps : List ℚ) (threshold : ℚ) : ℕ × ℚ × Option ℚ :=
  (n_cond eps threshold, condition_number, result_condition_number eps threshold)

/-- Return value of `gensqrtinv_atscf`, line 350:
`std::make_tuple(X, size_t(n_cond), condition_number, result_condition_number)`. -/
def gensqrtinv_atscf_ret (V : List (List ℚ)) (eps : List ℚ) (threshold : ℚ)
    (sq : ℚ → ℚ) : List (List ℚ) × ℕ × ℚ × Option ℚ :=
  (gensqrtinv_atscf_X V eps threshold sq, n_cond_atscf eps threshold,
    condition_number, result_condition_number_atscf eps threshold)

/-- Lines 377-381 of `gather_task_vectors`: the displacement recurrence
`disps[i] = (i > 0) ? (disps[i - 1] + count[i - 1]) : 0`. -/
def dispAt (counts : List ℕ) : ℕ → ℕ
  | 0 => 0
  | i + 1 => dispAt counts i + counts.getD i 0

/-- Writing a contiguous segment `seg` into a buffer at offset `off`,
overwriting `seg.length` elements. -/
def writeSeg (buf : List ℤ) (off : ℕ) (seg : List ℤ) : List ℤ :=
  buf.take off ++ seg ++ buf.drop (off + seg.length)

/-- Modelled from the spec: the MPI-style `gatherv` primitive invoked at
lines 394-397 (`ec.pg().gatherv`) is not part of this repository's source;
per the specification's step 3 it writes each process's contribution into
the coordinator's receive buffer at that process's precomputed displacement,
in ascending rank order. -/
def gatherv_write : List ℤ → List (List ℤ) → List ℕ → List ℤ
  | buf, [], _ => buf
  | buf, _ :: _, [] => buf
  | buf, s :: ss, d :: ds => gatherv_write (writeSeg buf d s) ss ds

/-- Coordinator-side result of one `gatherv` in `gather_task_vectors`:
`counts` are the per-rank sizes gathered at lines 369-371, the displacements
are computed by the loop at lines 377-381, the receive buffer is resized to
`disps[nranks - 1] + count[nranks - 1]` at lines 388-390, and the gather at
lines 394-397 fills it. -/
def gather_one (data : List (List ℤ)) : List ℤ :=
  let nranks := data.length
  let counts := data.map List.length
  let buf : List ℤ :=
    List.replicate (dispAt counts (nranks - 1) + counts.getD (nranks - 1) 0) 0
  gatherv_write buf data ((List.range nranks).map (dispAt counts))

/-- Receive buffer of one gathered vector as seen by a given rank: the
vectors `s1_all`, `s2_all`, `ntasks_all` are default-constructed empty at
lines 384-386 and resized only when `rank == 0` (lines 387-391); `gatherv`
leaves the receive buffer untouched on non-root ranks. -/
def recv_of (rank : ℕ) (data : List (List ℤ)) : List ℤ :=
  if rank = 0 then gather_one data else []

/-- Lines 357-402: `gather_task_vectors` on a given rank, with `s1`, `s2`,
`nt` the per-rank local vectors (indexed by rank, so rank `r` contributed
`s1.getD r []`, etc.).  The two `EXPECTS` assertions at lines 399-400 are
modelled as `Option`: `none` means the fatal assertion failure. -/
def gather_task_vectors (rank : ℕ) (s1 s2 nt : List (List ℤ)) :
    Option (List ℤ × List ℤ × List ℤ) :=
  let s1_all := recv_of rank s1
  let s2_all := recv_of rank s2
  let ntasks_all := recv_of rank nt
  if s1_all.length = s2_all.length then
    if s1_all.length = ntasks_all.length then some (s1_all, s2_all, ntasks_all)
    else none
  else none

theorem first_above_thresh_le_length (eps : List ℚ) (t : ℚ) :
    first_above_thresh eps t ≤ eps.length :=
  List.findIdx_le_length _

theorem dispAt_cons (c : ℕ) (cs : List ℕ) (i : ℕ) :
    dispAt (c :: cs) (i + 1) = c + dispAt cs i := by
  induction i with
  | zero => simp [dispAt]
  | succ i ih =>
    rw [dispAt, ih, List.getD_cons_succ, dispAt]
    omega

theorem dispAt_eq_sum_take (counts : List ℕ) (i : ℕ) :
    dispAt counts i = (counts.take i).sum := by
  induction i with
  | zero => simp [dispAt]
  | succ i ih =>
    rw [dispAt, ih]
    by_cases h : i < counts.length
    · rw [List.sum_take_succ _ _ h, List.getD_eq_getElem _ _ h]
    · push_neg at h
      rw [List.take_of_length_le h, List.take_of_length_le (le_trans h (Nat.le_succ i)),
        List.getD_eq_default _ _ h]
      simp

theorem length_writeSeg (buf seg : List ℤ) (off : ℕ)
    (h : off + seg.length ≤ buf.length) :
    (writeSeg buf off seg).length = buf.length := by
  simp [writeSeg]
  omega

theorem range_map_dispAt_cons (c : ℕ) (cs : List ℕ) (off n : ℕ) :
    (List.range (n + 1)).map (fun i => off + dispAt (c :: cs) i)
      = off :: (List.range n).map (fun i => off + c + dispAt cs i) := by
  rw [List.range_succ_eq_map, List.map_cons, List.map_map]
  refine congrArg₂ _ (by simp [dispAt]) (List.map_congr_left ?_)
  intro i _
  simp [Function.comp, Nat.succ_eq_add_one, dispAt_cons]
  omega

theorem gatherv_write_concat (segs : List (List ℤ)) :
    ∀ (buf : List ℤ) (off : ℕ),
      off + (segs.map List.length).sum ≤ buf.length →
      gatherv_write buf segs
          ((List.range segs.length).map (fun i => off + dispAt (segs.map List.length) i))
        = buf.take off ++ segs.flatten ++ buf.drop (off + (segs.map List.length).sum) := by
  induction segs with
  | nil =>
    intro buf off h
    simp only [List.map_nil, List.sum_nil, Nat.add_zero, List.length_nil, List.range_zero,
      List.flatten_nil, gatherv_write, List.append_nil]
    exact (List.take_append_drop off buf).symm
  | cons s ss ih =>
    intro buf off h
    simp only [List.map_cons, List.sum_cons, List.length_cons] at h ⊢
    rw [range_map_dispAt_cons, gatherv_write]
    have hoff : off ≤ buf.length := by omega
    have hlen_take : (buf.take off).length = off := by
      simp [List.length_take]; omega
    have hbuf' : writeSeg buf off s = buf.take off ++ s ++ buf.drop (off + s.length) := rfl
    have hlen' : off + s.length + (ss.map List.length).sum ≤ (writeSeg buf off s).length := by
      rw [length_writeSeg buf s off (by omega)]; omega
    have := ih (writeSeg buf off s) (off + s.length) hlen'
    rw [this]
    have hlen2 : (buf.take off ++ s).length = off + s.length := by
      rw [List.length_append, hlen_take]
    have htake : (writeSeg buf off s).take (off + s.length) = buf.take off ++ s := by
      rw [hbuf']
      exact List.take_left' hlen2
    have hdrop : (writeSeg buf off s).drop (off + s.length + (ss.map List.length).sum)
        = buf.drop (off + (s.length + (ss.map List.length).sum)) := by
      rw [hbuf', List.drop_append_eq_append_drop, hlen2,
        List.drop_eq_nil_of_le (by rw [hlen2]; omega), List.nil_append, List.drop_drop]
      congr 1
      omega
    rw [htake, hdrop]
    simp [List.append_assoc]

theorem gather_one_eq_flatten (data : List (List ℤ)) (h : data ≠ []) :
    gather_one data = data.flatten := by
  have hn : data.length - 1 + 1 = data.length :=
    Nat.succ_pred_eq_of_pos (List.length_pos.mpr h)
  have hlenc : (data.map List.length).length = data.length := List.length_map _ _
  have hsz : dispAt (data.map List.length) (data.length - 1)
      + (data.map List.length).getD (data.length - 1) 0 = (data.map List.length).sum := by
    have h1 : dispAt (data.map List.length) (data.length - 1)
        + (data.map List.length).getD (data.length - 1) 0
        = dispAt (data.map List.length) (data.length - 1 + 1) := rfl
    rw [h1, hn, dispAt_eq_sum_take, ← hlenc, List.take_length]
  have hmain := gatherv_write_concat data
    (List.replicate (data.map List.length).sum 0) 0 (by simp)
  simp only [Nat.zero_add] at hmain
  dsimp only [gather_one]
  rw [hsz, hmain]
  simp

theorem le_getLast_of_sorted (l : List ℚ) (hne : l ≠ [])
    (hs : List.Sorted (fun a b => a ≤ b) l) :
    ∀ x ∈ l, x ≤ l.getLast hne := by
  induction l with
  | nil => simp at hne
  | cons a t ih =>
    cases t with
    | nil =>
      intro x hx
      simp at hx
      subst hx
      simp [List.getLast]
    | cons b t2 =>
      intro x hx
      rw [List.getLast_cons (by simp)]
      rw [List.sorted_cons] at hs
      rcases List.mem_cons.mp hx with rfl | hx2
      · exact hs.1 _ (List.getLast_mem _)
      · exact ih (by simp) hs.2 x hx2

theorem first_above_thresh_atscf_eq (eps : List ℚ) (t : ℚ) :
    first_above_thresh_atscf eps t = first_above_thresh eps t := rfl

theorem n_cond_atscf_eq (eps : List ℚ) (t : ℚ) :
    n_cond_atscf eps t = n_cond eps t := rfl

theorem result_condition_number_atscf_eq (eps : List ℚ) (t : ℚ) :
    result_condition_number_atscf eps t = result_condition_number eps t := rfl

theorem gensqrtinv_X_length (V : List (List ℚ)) (eps : List ℚ) (t : ℚ) (sq : ℚ → ℚ)
    (hV : V.length = eps.length) :
    (gensqrtinv_X V eps t sq).length = n_cond eps t := by
  simp [gensqrtinv_X, epso, n_cond, n_illcond, hV]

theorem gensqrtinv_atscf_X_length (V : List (List ℚ)) (eps : List ℚ) (t : ℚ)
    (sq : ℚ → ℚ) :
    (gensqrtinv_atscf_X V eps t sq).length = n_cond_atscf eps t := by
  simp [gensqrtinv_atscf_X, n_cond_atscf, n_illcond_atscf]

theorem gensqrtinv_X_getElem (V : List (List ℚ)) (eps : List ℚ) (t : ℚ) (sq : ℚ → ℚ)
    (hV : V.length = eps.length) (i : ℕ) (hi : i < n_cond eps t) :
    (gensqrtinv_X V eps t sq)[i]?
      = some ((V.getD (first_above_thresh eps t + i) []).map
          (fun x => x * (1 / sq (eps.getD (first_above_thresh eps t + i) 0)))) := by
  have hie : first_above_thresh eps t + i < eps.length := by
    simp only [n_cond, n_illcond] at hi
    omega
  have hiV : first_above_thresh eps t + i < V.length := by omega
  rw [List.getD_eq_getElem _ _ hiV, List.getD_eq_getElem _ _ hie]
  simp only [gensqrtinv_X, epso, List.getElem?_zipWith, List.getElem?_map,
    List.getElem?_drop]
  rw [List.getElem?_eq_getElem hiV, List.getElem?_eq_getElem hie]
  rfl

theorem gensqrtinv_atscf_X_getElem (V : List (List ℚ)) (eps : List ℚ) (t : ℚ)
    (sq : ℚ → ℚ) (hV : V.length = eps.length) (i : ℕ) (hi : i < n_cond_atscf eps t) :
    (gensqrtinv_atscf_X V eps t sq)[i]?
      = some ((V.getD (first_above_thresh eps t + i) []).map
          (fun x => x * (1 / sq (eps.getD (first_above_thresh eps t + i) 0)))) := by
  have hie : first_above_thresh eps t + i < eps.length := by
    simp only [n_cond_atscf, n_illcond_atscf, first_above_thresh_atscf_eq] at hi
    omega
  have hiV : first_above_thresh eps t + i < V.length := by omega
  have hir : i < eps.length - first_above_thresh_atscf eps t := by
    rw [first_above_thresh_atscf_eq]
    omega
  rw [List.getD_eq_getElem _ _ hiV, List.getD_eq_getElem _ _ hie]
  simp only [gensqrtinv_atscf_X, List.getElem?_map, List.getElem?_range hir,
    Option.map_some']
  rw [List.getD_eq_getElem?_getD (V.drop (first_above_thresh_atscf eps t)),
    List.getElem?_drop, first_above_thresh_atscf_eq, List.getElem?_eq_getElem hiV,
    Option.getD_some, List.getD_eq_getElem _ _ hie]
  exact congrArg some (List.map_congr_left fun a _ => mul_comm _ _)

theorem n_cond_at_rank_eq (N c : ℤ) (P r : ℕ) (h : r < P) :
    n_cond_at_rank N P c r = N - c := by
  unfold n_cond_at_rank n_illcond_after_bcast n_illcond_before_bcast
  by_cases hP : 1 < P
  · simp [hP]
  · have hr : r = 0 := by omega
    simp [hP, hr]

theorem n_cond_cast (eps : List ℚ) (t : ℚ) :
    ((n_cond eps t : ℕ) : ℤ) = (eps.length : ℤ) - (n_illcond eps t : ℤ) := by
  have h := first_above_thresh_le_length eps t
  simp only [n_cond, n_illcond]
  omega

/-- C1: after the broadcast step in `gensqrtinv` (and `gensqrtinv_atscf`),
`n_cond = N - n_illcond` is identical on every process of the group, for
every eigenvalue vector and threshold: rank 0 computes `n_illcond`, the
value is broadcast when the group has more than one process, and every rank
then derives the same `n_cond` from the broadcast value. -/
theorem gensqrtinv_n_cond_identical (eps : List ℚ) (t : ℚ) (P r₁ r₂ : ℕ)
    (h₁ : r₁ < P) (h₂ : r₂ < P) :
    (n_cond_at_rank (eps.length : ℤ) P (n_illcond eps t : ℤ) r₁
       = n_cond_at_rank (eps.length : ℤ) P (n_illcond eps t : ℤ) r₂)
    ∧ n_cond_at_rank (eps.length : ℤ) P (n_illcond eps t : ℤ) r₁
       = (n_cond eps t : ℤ)
    ∧ (n_cond_at_rank (eps.length : ℤ) P (n_illcond_atscf eps t : ℤ) r₁
       = n_cond_at_rank (eps.length : ℤ) P (n_illcond_atscf eps t : ℤ) r₂)
    ∧ n_cond_at_rank (eps.length : ℤ) P (n_illcond_atscf eps t : ℤ) r₁
       = (n_cond_atscf eps t : ℤ) := by
  have ha : n_illcond_atscf eps t = n_illcond eps t := rfl
  refine ⟨?_, ?_, ?_, ?_⟩
  · rw [n_cond_at_rank_eq _ _ _ _ h₁, n_cond_at_rank_eq _ _ _ _ h₂]
  · rw [n_cond_at_rank_eq _ _ _ _ h₁, n_cond_cast]
  · rw [n_cond_at_rank_eq _ _ _ _ h₁, n_cond_at_rank_eq _ _ _ _ h₂]
  · rw [n_cond_at_rank_eq _ _ _ _ h₁, n_cond_atscf_eq, ha]
    exact (n_cond_cast eps t).symm

/-- Witness for C1 at `eps = [0, 1]`, `threshold = 1`, a three-process group
and ranks 0 and 2. -/
theorem gensqrtinv_n_cond_identical_witness :
    ((0 : ℕ) < 3 ∧ (2 : ℕ) < 3)
    ∧ n_cond_at_rank (([(0 : ℚ), 1]).length : ℤ) 3 (n_illcond [0, 1] 1 : ℤ) 0
        = (n_cond [0, 1] 1 : ℤ) :=
  ⟨⟨by decide, by decide⟩,
    (gensqrtinv_n_cond_identical [0, 1] 1 3 0 2 (by decide) (by decide)).2.1⟩

/-- C9: the `condition_number` diagnostic returned by `gensqrtinv` (second
tuple component) and by `gensqrtinv_atscf` (third tuple component) is never
computed and always equals its default-initialized value `0.0`, regardless
of the eigenvalues, the threshold, the eigenvectors or the square-root
routine. -/
theorem condition_number_never_computed :
    ∀ (V : List (List ℚ)) (eps : List ℚ) (t : ℚ) (sq : ℚ → ℚ),
      (gensqrtinv_ret eps t).2.1 = 0
      ∧ (gensqrtinv_atscf_ret V eps t sq).2.2.1 = 0 :=
  fun _ _ _ _ => ⟨rfl, rfl⟩

/-- C3: at the degenerate input `eps = [1, 2, 3]`, `threshold = 10` (every
eigenvalue strictly below the threshold), the iterator `first_above_thresh`
equals `eps.end()`, so line 163's `*first_above_thresh` is an out-of-range
access (`none` in the model) — contradicting the claim that the diagnostics
stay well-defined with no out-of-range access; the remaining steps do stay
well-defined: `n_illcond = N = 3`, `n_cond = 0`, the retained eigenvalue
list is empty and both transforms have zero columns. -/
theorem degenerate_all_below_deref_oob :
    first_above_thresh [(1 : ℚ), 2, 3] 10 = ([(1 : ℚ), 2, 3]).length
    ∧ ([(1 : ℚ), 2, 3])[first_above_thresh [(1 : ℚ), 2, 3] 10]? = none
    ∧ result_condition_number [(1 : ℚ), 2, 3] 10 = none
    ∧ n_illcond [(1 : ℚ), 2, 3] 10 = 3
    ∧ n_cond [(1 : ℚ), 2, 3] 10 = 0
    ∧ ∀ sq : ℚ → ℚ,
        epso [(1 : ℚ), 2, 3] 10 sq = []
        ∧ gensqrtinv_X [[1, 0, 0], [0, 1, 0], [0, 0, 1]] [(1 : ℚ), 2, 3] 10 sq = []
        ∧ gensqrtinv_atscf_X [[1, 0, 0], [0, 1, 0], [0, 0, 1]] [(1 : ℚ), 2, 3] 10 sq
            = [] := by
  refine ⟨by decide, by decide, by decide, by decide, by decide, ?_⟩
  intro sq
  exact ⟨rfl, rfl, rfl⟩

/-- C4 counterexample: for the ascending eigenvalues `[1, 2]` and threshold
`2` (equal to the largest eigenvalue, hence `≥` it), the filter retains the
eigenvalue that ties the threshold, so `n_cond = 1 ≠ 0`, refuting the claim
that every threshold `≥` the largest eigenvalue yields `n_cond = 0`. -/
theorem threshold_eq_largest_still_retained :
    List.Sorted (fun a b => a ≤ b) [(1 : ℚ), 2]
    ∧ (∀ x ∈ [(1 : ℚ), 2], x ≤ 2)
    ∧ n_cond [(1 : ℚ), 2] 2 = 1
    ∧ ¬ n_cond [(1 : ℚ), 2] 2 = 0 := by decide

/-- C4 (amended): for every ascending eigenvalue sequence and every
threshold strictly greater than the largest eigenvalue, the filter produces
`n_cond = 0` (all directions discarded). -/
theorem n_cond_zero_of_threshold_gt_largest (eps : List ℚ) (t : ℚ)
    (hne : eps ≠ []) (hsort : List.Sorted (fun a b => a ≤ b) eps)
    (ht : eps.getLast hne < t) :
    n_cond eps t = 0 := by
  have hidx : first_above_thresh eps t = eps.length := by
    rw [first_above_thresh, List.findIdx_eq_length]
    intro x hx
    simpa using
      not_le.mpr (lt_of_le_of_lt (le_getLast_of_sorted eps hne hsort x hx) ht)
  simp [n_cond, n_illcond, hidx]

/-- Witness for the amended C4 at `eps = [0, 1]`, `threshold = 2`. -/
theorem n_cond_zero_of_threshold_gt_largest_witness :
    n_cond [(0 : ℚ), 1] 2 = 0 :=
  n_cond_zero_of_threshold_gt_largest [0, 1] 2 (by decide) (by decide) (by decide)

/-- C2: for every ascending eigenvalue sequence with at least one eigenvalue
`≥ threshold`, the filter sets `first_above_thresh` to the index of the
first eigenvalue `≥ threshold` (a tie at exactly the threshold is retained,
all earlier eigenvalues are strictly below), `n_illcond` to that index,
`n_cond = N - n_illcond`, and `result_condition_number` to the largest
eigenvalue (the last, which dominates every element of the ascending list)
divided by the first retained eigenvalue; in particular for eigenvalues
`[1e-12, 0.5, 1, 2]` and threshold `1e-10` it yields `n_illcond = 1`,
`n_cond = 3` and `result_condition_number = 4`. -/
theorem filter_scan_correct :
    (∀ (eps : List ℚ) (t : ℚ) (hne : eps ≠ []),
       List.Sorted (fun a b => a ≤ b) eps →
       (∃ x ∈ eps, t ≤ x) →
       ∃ hidx : first_above_thresh eps t < eps.length,
         t ≤ eps.get ⟨first_above_thresh eps t, hidx⟩
         ∧ (∀ j (hj : j < first_above_thresh eps t), eps.get ⟨j, hj.trans hidx⟩ < t)
         ∧ n_illcond eps t = first_above_thresh eps t
         ∧ n_cond eps t = eps.length - first_above_thresh eps t
         ∧ (∀ x ∈ eps, x ≤ eps.getLast hne)
         ∧ result_condition_number eps t
             = some (eps.getLast hne / eps.get ⟨first_above_thresh eps t, hidx⟩))
    ∧ n_illcond [1 / 10 ^ 12, 1 / 2, 1, 2] (1 / 10 ^ 10) = 1
    ∧ n_cond [1 / 10 ^ 12, 1 / 2, 1, 2] (1 / 10 ^ 10) = 3
    ∧ result_condition_number [1 / 10 ^ 12, 1 / 2, 1, 2] (1 / 10 ^ 10) = some 4 := by
  constructor
  · intro eps t hne hsort hex
    have hidx : first_above_thresh eps t < eps.length :=
      List.findIdx_lt_length_of_exists (by simpa using hex)
    refine ⟨hidx, ?_, ?_, rfl, rfl, le_getLast_of_sorted eps hne hsort, ?_⟩
    · have h := @List.findIdx_getElem _ (fun x => decide (t ≤ x)) eps hidx
      simpa using h
    · intro j hj
      have h := @List.not_of_lt_findIdx _ (fun x => decide (t ≤ x)) eps j hj
      simp only [decide_eq_false_iff_not, not_le] at h
      simpa using h
    · rw [result_condition_number, List.getLast?_eq_getLast eps hne,
        List.getElem?_eq_getElem hidx]
      rfl
  · have h1 : first_above_thresh [1 / 10 ^ 12, 1 / 2, 1, 2] (1 / 10 ^ 10) = 1 := by
      norm_num [first_above_thresh, List.findIdx_cons]
    refine ⟨h1, ?_, ?_⟩
    · simp only [n_cond, n_illcond, h1]
      rfl
    · rw [result_condition_number, h1]
      norm_num

/-- Witness for C2's universal part at `eps = [0, 1, 2]`, `threshold = 1`. -/
theorem filter_scan_correct_witness :
    n_illcond [(0 : ℚ), 1, 2] 1 = 1 ∧ n_cond [(0 : ℚ), 1, 2] 1 = 2
    ∧ result_condition_number [(0 : ℚ), 1, 2] 1 = some 2 := by
  obtain ⟨hidx, hget, hbelow, hni, hnc, hmax, hrcn⟩ :=
    filter_scan_correct.1 [0, 1, 2] 1 (by decide) (by decide) (by decide)
  have h1 : first_above_thresh [(0 : ℚ), 1, 2] 1 = 1 := by decide
  refine ⟨by rw [hni, h1], by rw [hnc, h1]; decide, ?_⟩
  rw [hrcn]
  show some ((2 : ℚ) / 1) = some 2
  norm_num

/-- C5: for every input with `n_cond ≥ 1` (expressed as `i < n_cond`), the
transform produced by both `gensqrtinv` and `gensqrtinv_atscf` has `n_cond`
columns, and column `i` equals the `(n_illcond + i)`-th eigenvector (in
ascending eigenvalue order) scaled elementwise by the reciprocal square root
of eigenvalue `n_illcond + i`. -/
theorem transform_columns_scaled (V : List (List ℚ)) (eps : List ℚ) (t : ℚ)
    (sq : ℚ → ℚ) (hV : V.length = eps.length) (i : ℕ) (hi : i < n_cond eps t) :
    (gensqrtinv_X V eps t sq).length = n_cond eps t
    ∧ (gensqrtinv_atscf_X V eps t sq).length = n_cond eps t
    ∧ (gensqrtinv_X V eps t sq)[i]?
        = some ((V.getD (n_illcond eps t + i) []).map
            (fun x => x * (1 / sq (eps.getD (n_illcond eps t + i) 0))))
    ∧ (gensqrtinv_atscf_X V eps t sq)[i]?
        = some ((V.getD (n_illcond eps t + i) []).map
            (fun x => x * (1 / sq (eps.getD (n_illcond eps t + i) 0)))) :=
  ⟨gensqrtinv_X_length V eps t sq hV, gensqrtinv_atscf_X_length V eps t sq,
    gensqrtinv_X_getElem V eps t sq hV i hi,
    gensqrtinv_atscf_X_getElem V eps t sq hV i hi⟩

/-- Witness for C5 at `V = [[3], [5]]`, `eps = [1, 4]`, `threshold = 1`,
`sq = id` and column `i = 0`. -/
theorem transform_columns_scaled_witness :
    (0 : ℕ) < n_cond [(1 : ℚ), 4] 1
    ∧ (gensqrtinv_X [[3], [5]] [(1 : ℚ), 4] 1 (fun x => x))[0]? = some [3] := by
  have h := (transform_columns_scaled [[3], [5]] [(1 : ℚ), 4] 1 (fun x => x)
    (by decide) 0 (by decide)).2.2.1
  refine ⟨by decide, ?_⟩
  rw [h]
  show some [(3 : ℚ) * (1 / 1)] = some [3]
  norm_num

/-- C6: in dense single-process mode, `gensqrtinv_atscf` produces results
identical to `gensqrtinv` on the same eigendecomposition, the same
square-root routine and the same threshold: the same `n_cond`, the same
`condition_number` and `result_condition_number`, and the same transform
matrix, column by column. -/
theorem atscf_matches_gensqrtinv (V : List (List ℚ)) (eps : List ℚ) (t : ℚ)
    (sq : ℚ → ℚ) (hV : V.length = eps.length) :
    (gensqrtinv_atscf_ret V eps t sq).2.1 = (gensqrtinv_ret eps t).1
    ∧ (gensqrtinv_atscf_ret V eps t sq).2.2.1 = (gensqrtinv_ret eps t).2.1
    ∧ (gensqrtinv_atscf_ret V eps t sq).2.2.2 = (gensqrtinv_ret eps t).2.2
    ∧ (gensqrtinv_atscf_ret V eps t sq).1 = gensqrtinv_X V eps t sq := by
  refine ⟨rfl, rfl, rfl, ?_⟩
  apply List.ext_getElem?
  intro n
  by_cases hn : n < n_cond eps t
  · rw [show (gensqrtinv_atscf_ret V eps t sq).1 = gensqrtinv_atscf_X V eps t sq
        from rfl,
      gensqrtinv_atscf_X_getElem V eps t sq hV n hn,
      gensqrtinv_X_getElem V eps t sq hV n hn]
  · push_neg at hn
    rw [List.getElem?_eq_none, List.getElem?_eq_none]
    · rw [gensqrtinv_X_length V eps t sq hV]
      exact hn
    · rw [show (gensqrtinv_atscf_ret V eps t sq).1 = gensqrtinv_atscf_X V eps t sq
          from rfl,
        gensqrtinv_atscf_X_length V eps t sq]
      exact hn

/-- Witness for C6 at `V = [[1]]`, `eps = [2]`, `threshold = 3`, `sq = id`. -/
theorem atscf_matches_gensqrtinv_witness :
    (gensqrtinv_atscf_ret [[1]] [(2 : ℚ)] 3 (fun x => x)).1
      = gensqrtinv_X [[1]] [(2 : ℚ)] 3 (fun x => x) :=
  (atscf_matches_gensqrtinv [[1]] [(2 : ℚ)] 3 (fun x => x) (by decide)).2.2.2

/-- C7: for every nonempty list of per-process local vectors (arbitrary
lengths, including zero), the receive displacements are the exclusive prefix
sums of the reported lengths in ascending rank order, and the coordinator's
global vector is the concatenation of the per-process contributions in
ascending rank order (each preserving its local order), with length the sum
of the local lengths. -/
theorem gather_displacements_concat (data : List (List ℤ)) (h : data ≠ []) :
    (∀ i, dispAt (data.map List.length) i = ((data.map List.length).take i).sum)
    ∧ gather_one data = data.flatten
    ∧ (gather_one data).length = (data.map List.length).sum
    ∧ recv_of 0 data = data.flatten := by
  have hf := gather_one_eq_flatten data h
  refine ⟨fun i => dispAt_eq_sum_take _ i, hf, ?_, ?_⟩
  · rw [hf, List.length_flatten]
  · simp [recv_of, hf]

/-- Witness for C7 with three processes contributing local lengths
`[2, 0, 3]`. -/
theorem gather_displacements_concat_witness :
    gather_one [[1, 2], [], [3, 4, 5]] = [1, 2, 3, 4, 5] := by
  have h := (gather_displacements_concat [[1, 2], [], [3, 4, 5]] (by decide)).2.1
  rw [h]
  decide

/-- C8: `gather_task_vectors` fails the post-gather assertion (modelled as
returning `none`) exactly when the three gathered global vectors do not all
have equal length, and on success the returned triple has three vectors of
equal length. -/
theorem gather_equal_length_check (rank : ℕ) (s1 s2 nt : List (List ℤ)) :
    (gather_task_vectors rank s1 s2 nt = none
      ↔ ¬((recv_of rank s1).length = (recv_of rank s2).length
           ∧ (recv_of rank s1).length = (recv_of rank nt).length))
    ∧ ∀ a b c, gather_task_vectors rank s1 s2 nt = some (a, b, c) →
        a.length = b.length ∧ a.length = c.length := by
  constructor
  · dsimp only [gather_task_vectors]
    constructor
    · intro hnone hcond
      rw [if_pos hcond.1, if_pos hcond.2] at hnone
      exact Option.noConfusion hnone
    · intro hncond
      by_cases h1 : (recv_of rank s1).length = (recv_of rank s2).length
      · by_cases h2 : (recv_of rank s1).length = (recv_of rank nt).length
        · exact absurd ⟨h1, h2⟩ hncond
        · rw [if_pos h1, if_neg h2]
      · rw [if_neg h1]
  · intro a b c h
    dsimp only [gather_task_vectors] at h
    split_ifs at h with h1 h2
    · simp only [Option.some.injEq, Prod.mk.injEq] at h
      obtain ⟨ha, hb, hc⟩ := h
      subst ha hb hc
      exact ⟨h1, h2⟩

/-- Witness for C8 at rank 0 with local vectors `[[1]]`, `[[2]]`, `[[3]]`. -/
theorem gather_equal_length_check_witness :
    ([1] : List ℤ).length = ([2] : List ℤ).length
    ∧ ([1] : List ℤ).length = ([3] : List ℤ).length :=
  (gather_equal_length_check 0 [[1]] [[2]] [[3]]).2 [1] [2] [3] (by decide)

/-- C10: on every non-coordinator rank, `gather_task_vectors` returns three
empty vectors for every input, because the receive buffers are allocated
only on rank 0 (and the equal-length assertion trivially passes). -/
theorem gather_nonroot_empty (rank : ℕ) (h : rank ≠ 0)
    (s1 s2 nt : List (List ℤ)) :
    gather_task_vectors rank s1 s2 nt = some ([], [], []) := by
  simp [gather_task_vectors, recv_of, h]

/-- Witness for C10 at rank 1. -/
theorem gather_nonroot_empty_witness :
    gather_task_vectors 1 [[1]] [[2, 3]] [[4]] = some ([], [], []) :=
  gather_nonroot_empty 1 (by decide) [[1]] [[2, 3]] [[4]]
